import Mathlib

/-!
Verification of the Pico-ROS `picoserdes` CDR serialization layer
(`src/include/picoserdes.h`).

The header file under verification contains the two generic entry points
(`_ps_serialize` / `_ps_deserialize`, lines 320-354), their C++ overloads
(`PS_CPP_SER_OVERLOAD` / `PS_CPP_DES_OVERLOAD` / `PS_CPP_SRV_*`, lines
457-513), the `_Generic` dispatch tables (`PS_SEL_SER` / `PS_SEL_DES` /
`PS_SEL_SRV_SER` / `PS_SEL_SRV_DES`, lines 278-289), the declarative type
machinery (`SEQUENCE_DECLARE`, `SRV_DECLARE`, lines 140-163) and the type
identity constants (`ROSTYPE_NAME` / `ROSTYPE_HASH`, lines 202-227).  The
bodies of the generated per-type routines (`ps_ser_*` / `ps_des_*`) and of
the `ucdr_*` string helpers live in `picoserdes.c`, which is not part of the
sources provided; those routines are modelled from the specification's wire
format rules (spec sections 4.2 and 6), as marked on each definition below.

Machine integers are modelled as `Nat` with explicit `% 2 ^ 64` where the C
`size_t` arithmetic can wrap (the `MAX - sizeof(uint32_t)` computation in
both entry points) and `% 256` at the byte level.
-/

namespace Picoserdes

/-! ### Byte-level helpers (Micro-CDR primitive byte conventions) -/

/-- Little-endian byte list of width `w` for value `v`: byte `i` is
`v / 256 ^ i % 256`.  Models how Micro-CDR lays out a `w`-byte primitive on
the little-endian targets this library is built for. -/
def leBytes : Nat → Nat → List Nat
  | 0, _ => []
  | w + 1, v => v % 256 :: leBytes w (v / 256)

/-- Read a little-endian byte list back into a value.  Each entry is reduced
mod 256 because a C byte can never hold more. -/
def fromLE : List Nat → Nat
  | [] => 0
  | b :: bs => b % 256 + 256 * fromLE bs

/-- CDR padding inserted at offset `pos` before a primitive of width `w`:
the distance to the next multiple of `w`. -/
def padOf (pos w : Nat) : Nat := (w - pos % w) % w

/-- C `size_t` subtraction `a - b`: wraps modulo `2 ^ 64` exactly as the
`MAX - sizeof(uint32_t)` expressions in `_ps_serialize` / `_ps_deserialize`
(picoserdes.h lines 325 and 346) do when `MAX < 4`. -/
def size_sub (a b : Nat) : Nat := (a + (2 ^ 64 - b)) % 2 ^ 64

/-- Memory holding the bytes of a concrete list: byte `i` of the list, and 0
at every offset past its end. -/
def memOf (l : List Nat) : Nat → Nat := fun i => l.getD i 0

/-! ### The declared-type universe

`MSG_LIST` / `SRV_LIST` entries (picoserdes.h lines 140-163) declare types
built from primitives, `rstring`, fixed `ARRAY` fields, `SEQUENCE` fields
and compound structs; `SEQUENCE_DECLARE` (lines 140-144) synthesizes a
count-plus-element-buffer container for every declared type. -/

/-- Descriptor of a declared wire type.  `prim w` covers the fixed-width
entries of `BASE_TYPES_LIST` (`bool`, `char`, the sized integers, `float`,
`double`) with `w` their byte width; `rstr` is the `rstring` base type;
`fixedArray` an `ARRAY(type, name, size)` field; `seq` the synthesized
`TYPE_sequence` container; `compound` a `CTYPE` struct with its ordered
field list. -/
inductive TypeD : Type where
  | prim (w : Nat)
  | rstr
  | fixedArray (t : TypeD) (n : Nat)
  | seq (t : TypeD)
  | compound (fields : List TypeD)

/-- A runtime value of a declared type: a primitive bit pattern, a string
(its bytes, NUL not included), a fixed array, a sequence
(`TYPE_sequence = {data, n_elements}`), or a compound struct given by its
field values in declaration order. -/
inductive Value : Type where
  | prim (w v : Nat)
  | str (s : List Nat)
  | arr (vs : List Value)
  | seqv (vs : List Value)
  | comp (vs : List Value)

mutual
/-- `hasType v t`: `v` is constructible from descriptor `t`.  Primitives
carry their declared width and fit in it; strings are NUL-free byte lists
whose NUL-included length fits the `uint32_t` wire prefix; fixed arrays have
exactly the declared element count; sequence counts fit the `uint32_t`
`n_elements` field; compounds match their field list pointwise. -/
def hasType : Value → TypeD → Bool
  | .prim w v, .prim w' =>
      w == w' && (w == 1 || w == 2 || w == 4 || w == 8) && decide (v < 256 ^ w)
  | .str s, .rstr =>
      decide (0 ∉ s) && decide (∀ b ∈ s, b < 256) && decide (s.length + 1 < 2 ^ 32)
  | .arr vs, .fixedArray t n => vs.length == n && hasTypeAll vs t
  | .seqv vs, .seq t => decide (vs.length < 2 ^ 32) && hasTypeAll vs t
  | .comp vs, .compound ts => hasTypeFields vs ts
  | _, _ => false

/-- Every element of the list is constructible from `t`. -/
def hasTypeAll : List Value → TypeD → Bool
  | [], _ => true
  | v :: vs, t => hasType v t && hasTypeAll vs t

/-- Field values match the field descriptor list pointwise. -/
def hasTypeFields : List Value → List TypeD → Bool
  | [], [] => true
  | v :: vs, t :: ts => hasType v t && hasTypeFields vs ts
  | _, _ => false
end

/-! ### The serialization cursor -/

/-- Model of the Micro-CDR `ucdrBuffer` used as a write cursor: the
capacity handed to `ucdr_init_buffer`, the bytes appended so far
(`ucdr_buffer_length` is `buf.length`), and the sticky error flag. -/
structure ucdrBuffer where
  cap : Nat
  buf : List Nat
  err : Bool

/-- Aligned, bounds-checked primitive write of the external Micro-CDR byte
buffer (spec: the Byte Buffer collaborator, primitive rules "alignment +
native width").  On overflow it sets the sticky error flag and writes
nothing; padding bytes are written as 0. -/
def writePrim (w v : Nat) (st : ucdrBuffer) : ucdrBuffer :=
  if st.err then st
  else if st.buf.length + padOf st.buf.length w + w ≤ st.cap then
    { st with buf := st.buf ++ List.replicate (padOf st.buf.length w) 0 ++ leBytes w v }
  else { st with err := true }

/-- Bounds-checked raw byte-array write (alignment 1), used for the
character payload of a string.  Each byte is stored mod 256. -/
def writeBytes (bs : List Nat) (st : ucdrBuffer) : ucdrBuffer :=
  if st.err then st
  else if st.buf.length + bs.length ≤ st.cap then
    { st with buf := st.buf ++ bs.map (fun b => b % 256) }
  else { st with err := true }

mutual
/-- Modelled from the spec: the generated per-type serializer bodies
(`ps_ser_*` in `picoserdes.c`, which is not among the provided sources;
only their declarations, picoserdes.h lines 235-248, are).  Follows the
spec's wire rules (sections 4.2 and 6): primitives via the primitive-CDR
byte rules; strings as a `uint32_t` length prefix counting the terminator
followed by the raw bytes and the terminator; fixed arrays as exactly `n`
back-to-back elements with no count; sequences as a `uint32_t` element
count followed by that many elements; compounds as their fields strictly in
declaration order with no tags. -/
def encodeVal : Value → ucdrBuffer → ucdrBuffer
  | .prim w v, st => writePrim w v st
  | .str s, st => writeBytes (s ++ [0]) (writePrim 4 (s.length + 1) st)
  | .arr vs, st => encodeList vs st
  | .seqv vs, st => encodeList vs (writePrim 4 vs.length st)
  | .comp vs, st => encodeList vs st

/-- Modelled from the spec: back-to-back serialization of a list of values
(array elements, sequence elements, or compound fields in declaration
order). -/
def encodeList : List Value → ucdrBuffer → ucdrBuffer
  | [], st => st
  | v :: vs, st => encodeList vs (encodeVal v st)
end

/-! ### The deserialization cursor -/

/-- Aligned, bounds-checked primitive read from memory `mem` against
capacity `cap`: fails (returns `none`, the Micro-CDR sticky error) whenever
the aligned access would cross `cap`; never touches an offset at or past
`cap`. -/
def readPrim (mem : Nat → Nat) (cap w pos : Nat) : Option (Nat × Nat) :=
  if pos + padOf pos w + w ≤ cap then
    some (fromLE ((List.range w).map fun i => mem (pos + padOf pos w + i)),
          pos + padOf pos w + w)
  else none

/-- Bounds-checked raw byte-array read (alignment 1). -/
def readBytes (mem : Nat → Nat) (cap n pos : Nat) : Option (List Nat × Nat) :=
  if pos + n ≤ cap then
    some ((List.range n).map fun i => mem (pos + i) % 256, pos + n)
  else none

/-- Decode `n` consecutive elements with the element decoder `d`, threading
the cursor position; fails as soon as an element fails. -/
def decodeListN (d : Nat → Option (Value × Nat)) : Nat → Nat → Option (List Value × Nat)
  | 0, pos => some ([], pos)
  | n + 1, pos =>
    match d pos with
    | none => none
    | some (v, p) =>
      match decodeListN d n p with
      | none => none
      | some (vs, p') => some (v :: vs, p')

mutual
/-- Modelled from the spec: the generated per-type deserializer bodies
(`ps_des_*` in `picoserdes.c`, not among the provided sources; only their
declarations, picoserdes.h lines 255-268, are).  Mirror image of
`encodeVal`: every read is bounds-checked against the cursor capacity and
decode stops with a failure result instead of reading past it, including
when an embedded sequence count is inconsistent with the remaining bytes
(spec sections 4.2 and 7, `DecodeUnderflow`). -/
def decodeVal (mem : Nat → Nat) (cap : Nat) : TypeD → Nat → Option (Value × Nat)
  | .prim w, pos =>
    match readPrim mem cap w pos with
    | none => none
    | some (v, p) => some (.prim w v, p)
  | .rstr, pos =>
    match readPrim mem cap 4 pos with
    | none => none
    | some (len, p) =>
      match readBytes mem cap len p with
      | none => none
      | some (bs, p') => some (.str bs.dropLast, p')
  | .fixedArray t n, pos =>
    match decodeListN (fun q => decodeVal mem cap t q) n pos with
    | none => none
    | some (vs, p) => some (.arr vs, p)
  | .seq t, pos =>
    match readPrim mem cap 4 pos with
    | none => none
    | some (n, p) =>
      match decodeListN (fun q => decodeVal mem cap t q) n p with
      | none => none
      | some (vs, p') => some (.seqv vs, p')
  | .compound ts, pos =>
    match decodeFields mem cap ts pos with
    | none => none
    | some (vs, p) => some (.comp vs, p)

/-- Modelled from the spec: decoding of compound fields strictly in
declaration order. -/
def decodeFields (mem : Nat → Nat) (cap : Nat) : List TypeD → Nat → Option (List Value × Nat)
  | [], pos => some ([], pos)
  | t :: ts, pos =>
    match decodeVal mem cap t pos with
    | none => none
    | some (v, p) =>
      match decodeFields mem cap ts p with
      | none => none
      | some (vs, p') => some (v :: vs, p')
end

/-! ### The generic entry points (picoserdes.h lines 320-354) -/

/-- Result of one `_ps_serialize` expansion: the 4 bytes stored through
`*((uint32_t*)pBUF)`, the payload bytes the selected routine wrote from
`pBUF + 4`, and the `size_t` value of the statement expression. -/
structure SerOut where
  header : List Nat
  payload : List Nat
  ret : Nat

/-- The `_ps_serialize` macro body (picoserdes.h lines 321-334), generic in
the `_Generic`-selected per-type routine `f`: store the little-endian
header constant `0x0100` unconditionally, init the cursor at `pBUF + 4`
with capacity `MAX - sizeof(uint32_t)` (`size_t` arithmetic), run the
routine with its boolean result discarded, and return
`ucdr_buffer_length(&writer) + sizeof(uint32_t)`. -/
def ps_serialize_generic (f : ucdrBuffer → ucdrBuffer) (MAX : Nat) : SerOut :=
  let writer := f { cap := size_sub MAX 4, buf := [], err := false }
  { header := [0x00, 0x01, 0x00, 0x00]
    payload := writer.buf
    ret := writer.buf.length + 4 }

/-- `ps_serialize` on a value of a declared type: the `_Generic` dispatch
resolves to that type's generated serializer, modelled by `encodeVal`. -/
def ps_serialize (v : Value) (MAX : Nat) : SerOut :=
  ps_serialize_generic (encodeVal v) MAX

/-- All bytes `_ps_serialize` stored in the destination buffer, in offset
order: header at offsets 0-3, payload from offset 4. -/
def outBytes (r : SerOut) : List Nat := r.header ++ r.payload

/-- The `_ps_deserialize` macro body (picoserdes.h lines 343-354), generic
in the `_Generic`-selected per-type routine `g`: init the read cursor at
`pBUF + 4` with capacity `MAX - sizeof(uint32_t)` (`size_t` arithmetic) and
return the routine's result.  The first 4 bytes are skipped, not read. -/
def ps_deserialize_generic (g : (Nat → Nat) → Nat → Nat → Option (Value × Nat))
    (mem : Nat → Nat) (MAX : Nat) : Option (Value × Nat) :=
  g (fun i => mem (i + 4)) (size_sub MAX 4) 0

/-- `ps_deserialize` against a declared type's descriptor: the `_Generic`
dispatch resolves to that type's generated deserializer, modelled by
`decodeVal`.  `some` is the C routine returning `true` with the decoded
value stored through `pMSG`; `none` is `false`. -/
def ps_deserialize (t : TypeD) (mem : Nat → Nat) (MAX : Nat) : Option (Value × Nat) :=
  ps_deserialize_generic (fun m c p => decodeVal m c t p) mem MAX

/-! ### The C++ inline overloads (picoserdes.h lines 457-513) -/

/-- Body of `PS_CPP_SER_OVERLOAD` (picoserdes.h lines 457-465), generic in
the per-type routine the overload calls. -/
def ps_serialize_cpp (f : ucdrBuffer → ucdrBuffer) (MAX : Nat) : SerOut :=
  let writer := f { cap := size_sub MAX 4, buf := [], err := false }
  { header := [0x00, 0x01, 0x00, 0x00]
    payload := writer.buf
    ret := writer.buf.length + 4 }

/-- Body of `PS_CPP_DES_OVERLOAD` (picoserdes.h lines 467-473). -/
def ps_deserialize_cpp (g : (Nat → Nat) → Nat → Nat → Option (Value × Nat))
    (mem : Nat → Nat) (MAX : Nat) : Option (Value × Nat) :=
  g (fun i => mem (i + 4)) (size_sub MAX 4) 0

/-- Body of the request half of `PS_CPP_SRV_SER_OVERLOAD` (picoserdes.h
lines 483-491). -/
def ps_serialize_cpp_srv_request (f : ucdrBuffer → ucdrBuffer) (MAX : Nat) : SerOut :=
  let writer := f { cap := size_sub MAX 4, buf := [], err := false }
  { header := [0x00, 0x01, 0x00, 0x00]
    payload := writer.buf
    ret := writer.buf.length + 4 }

/-- Body of the reply half of `PS_CPP_SRV_SER_OVERLOAD` (picoserdes.h
lines 492-499). -/
def ps_serialize_cpp_srv_reply (f : ucdrBuffer → ucdrBuffer) (MAX : Nat) : SerOut :=
  let writer := f { cap := size_sub MAX 4, buf := [], err := false }
  { header := [0x00, 0x01, 0x00, 0x00]
    payload := writer.buf
    ret := writer.buf.length + 4 }

/-- Body of the request half of `PS_CPP_SRV_DES_OVERLOAD` (picoserdes.h
lines 501-507). -/
def ps_deserialize_cpp_srv_request (g : (Nat → Nat) → Nat → Nat → Option (Value × Nat))
    (mem : Nat → Nat) (MAX : Nat) : Option (Value × Nat) :=
  g (fun i => mem (i + 4)) (size_sub MAX 4) 0

/-- Body of the reply half of `PS_CPP_SRV_DES_OVERLOAD` (picoserdes.h
lines 508-513). -/
def ps_deserialize_cpp_srv_reply (g : (Nat → Nat) → Nat → Nat → Option (Value × Nat))
    (mem : Nat → Nat) (MAX : Nat) : Option (Value × Nat) :=
  g (fun i => mem (i + 4)) (size_sub MAX 4) 0

/-! ### The `_Generic` dispatch tables (picoserdes.h lines 278-289, 326-331,
347-352)

Each association is modelled as (static pointer type of the controlling
expression, name of the selected routine), in the exact order the macro
expansion lays the associations out: `BASE_TYPES_LIST` entries first, then
the `MSG_LIST` compound entries, then the `SRV_LIST` entries.  `MSG_LIST`
and `SRV_LIST` are empty in the default build (picoserdes.h lines 66 and
94); a user type file extends the `msgs` / `srvs` parameters. -/

/-- `PS_SEL_SER` (picoserdes.h lines 278-280): one type's two serializer
associations. -/
def PS_SEL_SER (t : String) : List (String × String) :=
  [(t ++ "*", "ps_ser_" ++ t), (t ++ "_sequence*", "ps_ser_sequence_" ++ t)]

/-- `PS_SEL_DES` (picoserdes.h lines 281-283). -/
def PS_SEL_DES (t : String) : List (String × String) :=
  [(t ++ "*", "ps_des_" ++ t), (t ++ "_sequence*", "ps_des_sequence_" ++ t)]

/-- `PS_SEL_SRV_SER` (picoserdes.h lines 284-286): one service's two
serializer associations. -/
def PS_SEL_SRV_SER (t : String) : List (String × String) :=
  [("request_" ++ t ++ "*", "ps_ser_" ++ t ++ "_request"),
   ("reply_" ++ t ++ "*", "ps_ser_" ++ t ++ "_reply")]

/-- `PS_SEL_SRV_DES` (picoserdes.h lines 287-289). -/
def PS_SEL_SRV_DES (t : String) : List (String × String) :=
  [("request_" ++ t ++ "*", "ps_des_" ++ t ++ "_request"),
   ("reply_" ++ t ++ "*", "ps_des_" ++ t ++ "_reply")]

/-- `BASE_TYPES_LIST` (picoserdes.h lines 109-122). -/
def BASE_TYPES_LIST : List String :=
  ["bool", "char", "int8_t", "uint8_t", "int16_t", "uint16_t",
   "int32_t", "uint32_t", "int64_t", "uint64_t", "float", "double", "rstring"]

/-- The serializer `_Generic` association list of `_ps_serialize`
(picoserdes.h lines 326-331): base types, then `MSG_LIST` compound types,
then `SRV_LIST` request/reply pairs. -/
def generic_ser_assoc (msgs srvs : List String) : List (String × String) :=
  (BASE_TYPES_LIST.map PS_SEL_SER).flatten
    ++ (msgs.map PS_SEL_SER).flatten ++ (srvs.map PS_SEL_SRV_SER).flatten

/-- The deserializer `_Generic` association list of `_ps_deserialize`
(picoserdes.h lines 347-352). -/
def generic_des_assoc (msgs srvs : List String) : List (String × String) :=
  (BASE_TYPES_LIST.map PS_SEL_DES).flatten
    ++ (msgs.map PS_SEL_DES).flatten ++ (srvs.map PS_SEL_SRV_DES).flatten

/-! ### Type identity and service declarations (picoserdes.h lines 155-163,
202-227; rmw_topic_t in picoros.h lines 66-70) -/

/-- A declared message type: the two identity constants generated by
`TYPE_NAME` / `TYPE_HASH` (picoserdes.h lines 202-220) next to the type's
wire descriptor. -/
structure MsgType where
  name : String
  hash : String
  desc : TypeD

/-- `ROSTYPE_NAME` (picoserdes.h line 224): expose the stored name
constant. -/
def ROSTYPE_NAME (m : MsgType) : String := m.name

/-- `ROSTYPE_HASH` (picoserdes.h line 227): expose the stored hash
constant. -/
def ROSTYPE_HASH (m : MsgType) : String := m.hash

/-- A declared message type's serializer entry point: the identity fields
play no part in the encode path. -/
def ps_ser_msg (m : MsgType) (v : Value) (MAX : Nat) : SerOut :=
  ps_serialize v MAX

/-- A declared message type's deserializer entry point: driven by the wire
descriptor only. -/
def ps_des_msg (m : MsgType) (mem : Nat → Nat) (MAX : Nat) : Option (Value × Nat) :=
  ps_deserialize m.desc mem MAX

/-- A declared service (`SRV_DECLARE`, picoserdes.h lines 155-163): its
identity constants and the two independent field lists from which
`REQUEST_DECLARE` / `REPLY_DECLARE` build the `request_TYPE` and
`reply_TYPE` structs. -/
structure SrvType where
  name : String
  hash : String
  request : List TypeD
  reply : List TypeD

/-- The `request_TYPE` compound type generated by `REQUEST_DECLARE`. -/
def request_type (s : SrvType) : TypeD := .compound s.request

/-- The `reply_TYPE` compound type generated by `REPLY_DECLARE`. -/
def reply_type (s : SrvType) : TypeD := .compound s.reply

/-- Modelled from the spec: `ps_ser_TYPE_request` (generated body in
`picoserdes.c`, not among the provided sources) serializes a request value;
it is built from the request field list alone. -/
def ps_ser_srv_request (s : SrvType) (v : Value) (st : ucdrBuffer) : ucdrBuffer :=
  encodeVal v st

/-- Modelled from the spec: `ps_ser_TYPE_reply`. -/
def ps_ser_srv_reply (s : SrvType) (v : Value) (st : ucdrBuffer) : ucdrBuffer :=
  encodeVal v st

/-- Modelled from the spec: `ps_des_TYPE_request` decodes against the
request compound descriptor alone. -/
def ps_des_srv_request (s : SrvType) (mem : Nat → Nat) (MAX : Nat) : Option (Value × Nat) :=
  ps_deserialize (.compound s.request) mem MAX

/-- Modelled from the spec: `ps_des_TYPE_reply` decodes against the reply
compound descriptor alone. -/
def ps_des_srv_reply (s : SrvType) (mem : Nat → Nat) (MAX : Nat) : Option (Value × Nat) :=
  ps_deserialize (.compound s.reply) mem MAX

/-- Per-element wire chunks of a value list: the bytes each element's
serialization appends, starting from writer state `st` (so element `i + 1`
starts exactly where element `i` stopped: back-to-back). -/
def encChunks : List Value → ucdrBuffer → List (List Nat)
  | [], _ => []
  | v :: vs, st => ((encodeVal v st).buf.drop st.buf.length) :: encChunks vs (encodeVal v st)

end Picoserdes

namespace Picoserdes

/-! ### Byte-level lemmas -/

theorem leBytes_length : ∀ w v, (leBytes w v).length = w
  | 0, _ => rfl
  | w + 1, v => by simp [leBytes, leBytes_length w]

/-! ### Writer facts -/

theorem writePrim_cap (w v : Nat) (st : ucdrBuffer) : (writePrim w v st).cap = st.cap := by
  unfold writePrim; split
  · rfl
  · split <;> rfl

theorem writeBytes_cap (bs : List Nat) (st : ucdrBuffer) :
    (writeBytes bs st).cap = st.cap := by
  unfold writeBytes; split
  · rfl
  · split <;> rfl

theorem writePrim_sticky (w v : Nat) (st : ucdrBuffer) (h : st.err = true) :
    writePrim w v st = st := by
  unfold writePrim; simp [h]

theorem writeBytes_sticky (bs : List Nat) (st : ucdrBuffer) (h : st.err = true) :
    writeBytes bs st = st := by
  unfold writeBytes; simp [h]

theorem writePrim_append (w v : Nat) (st : ucdrBuffer) :
    ∃ d, (writePrim w v st).buf = st.buf ++ d := by
  unfold writePrim; split
  · exact ⟨[], by simp⟩
  · split
    · exact ⟨List.replicate (padOf st.buf.length w) 0 ++ leBytes w v, by simp⟩
    · exact ⟨[], by simp⟩

theorem writeBytes_append (bs : List Nat) (st : ucdrBuffer) :
    ∃ d, (writeBytes bs st).buf = st.buf ++ d := by
  unfold writeBytes; split
  · exact ⟨[], by simp⟩
  · split
    · exact ⟨bs.map (fun b => b % 256), by simp⟩
    · exact ⟨[], by simp⟩

theorem writePrim_le_cap (w v : Nat) (st : ucdrBuffer) (h : st.buf.length ≤ st.cap) :
    (writePrim w v st).buf.length ≤ st.cap := by
  unfold writePrim; split
  · exact h
  · split
    · rename_i hfit
      simp only [List.length_append, List.length_replicate, leBytes_length]
      omega
    · exact h

theorem writeBytes_le_cap (bs : List Nat) (st : ucdrBuffer) (h : st.buf.length ≤ st.cap) :
    (writeBytes bs st).buf.length ≤ st.cap := by
  unfold writeBytes; split
  · exact h
  · split
    · rename_i hfit
      simp only [List.length_append, List.length_map]
      omega
    · exact h

mutual
theorem encodeVal_cap (v : Value) : ∀ st : ucdrBuffer, (encodeVal v st).cap = st.cap := by
  intro st
  cases v with
  | prim w n => simp only [encodeVal]; exact writePrim_cap _ _ _
  | str s =>
      simp only [encodeVal]
      rw [writeBytes_cap, writePrim_cap]
  | arr vs => simp only [encodeVal]; exact encodeList_cap vs st
  | seqv vs =>
      simp only [encodeVal]
      rw [encodeList_cap vs, writePrim_cap]
  | comp vs => simp only [encodeVal]; exact encodeList_cap vs st
theorem encodeList_cap (vs : List Value) : ∀ st : ucdrBuffer,
    (encodeList vs st).cap = st.cap := by
  intro st
  cases vs with
  | nil => simp only [encodeList]
  | cons v vs => simp only [encodeList]; rw [encodeList_cap vs, encodeVal_cap v]
end

mutual
theorem encodeVal_sticky (v : Value) : ∀ st : ucdrBuffer, st.err = true →
    encodeVal v st = st := by
  intro st h
  cases v with
  | prim w n => simp only [encodeVal]; exact writePrim_sticky _ _ _ h
  | str s =>
      simp only [encodeVal]
      rw [writePrim_sticky _ _ _ h, writeBytes_sticky _ _ h]
  | arr vs => simp only [encodeVal]; exact encodeList_sticky vs st h
  | seqv vs =>
      simp only [encodeVal]
      rw [writePrim_sticky _ _ _ h, encodeList_sticky vs st h]
  | comp vs => simp only [encodeVal]; exact encodeList_sticky vs st h
theorem encodeList_sticky (vs : List Value) : ∀ st : ucdrBuffer, st.err = true →
    encodeList vs st = st := by
  intro st h
  cases vs with
  | nil => simp only [encodeList]
  | cons v vs =>
      simp only [encodeList]
      rw [encodeVal_sticky v st h, encodeList_sticky vs st h]
end

mutual
theorem encodeVal_push (v : Value) : ∀ st : ucdrBuffer,
    ∃ d, (encodeVal v st).buf = st.buf ++ d := by
  intro st
  cases v with
  | prim w n => simp only [encodeVal]; exact writePrim_append _ _ _
  | str s =>
      simp only [encodeVal]
      obtain ⟨d1, h1⟩ := writePrim_append 4 (s.length + 1) st
      obtain ⟨d2, h2⟩ := writeBytes_append (s ++ [0]) (writePrim 4 (s.length + 1) st)
      exact ⟨d1 ++ d2, by rw [h2, h1, List.append_assoc]⟩
  | arr vs => simp only [encodeVal]; exact encodeList_push vs st
  | seqv vs =>
      simp only [encodeVal]
      obtain ⟨d1, h1⟩ := writePrim_append 4 vs.length st
      obtain ⟨d2, h2⟩ := encodeList_push vs (writePrim 4 vs.length st)
      exact ⟨d1 ++ d2, by rw [h2, h1, List.append_assoc]⟩
  | comp vs => simp only [encodeVal]; exact encodeList_push vs st
theorem encodeList_push (vs : List Value) : ∀ st : ucdrBuffer,
    ∃ d, (encodeList vs st).buf = st.buf ++ d := by
  intro st
  cases vs with
  | nil => exact ⟨[], by simp [encodeList]⟩
  | cons v vs =>
      simp only [encodeList]
      obtain ⟨d1, h1⟩ := encodeVal_push v st
      obtain ⟨d2, h2⟩ := encodeList_push vs (encodeVal v st)
      exact ⟨d1 ++ d2, by rw [h2, h1, List.append_assoc]⟩
end

mutual
theorem encodeVal_le_cap (v : Value) : ∀ st : ucdrBuffer, st.buf.length ≤ st.cap →
    (encodeVal v st).buf.length ≤ st.cap := by
  intro st h
  cases v with
  | prim w n => simp only [encodeVal]; exact writePrim_le_cap _ _ _ h
  | str s =>
      simp only [encodeVal]
      have h1 := writePrim_le_cap 4 (s.length + 1) st h
      have := writeBytes_le_cap (s ++ [0]) (writePrim 4 (s.length + 1) st)
      rw [writePrim_cap] at this
      exact this h1
  | arr vs => simp only [encodeVal]; exact encodeList_le_cap vs st h
  | seqv vs =>
      simp only [encodeVal]
      have h1 := writePrim_le_cap 4 vs.length st h
      have := encodeList_le_cap vs (writePrim 4 vs.length st)
      rw [writePrim_cap] at this
      exact this h1
  | comp vs => simp only [encodeVal]; exact encodeList_le_cap vs st h
theorem encodeList_le_cap (vs : List Value) : ∀ st : ucdrBuffer, st.buf.length ≤ st.cap →
    (encodeList vs st).buf.length ≤ st.cap := by
  intro st h
  cases vs with
  | nil => simpa only [encodeList] using h
  | cons v vs =>
      simp only [encodeList]
      have h1 := encodeVal_le_cap v st h
      have := encodeList_le_cap vs (encodeVal v st)
      rw [encodeVal_cap] at this
      exact this h1
end

/-- The error flag only ever moves from `false` to `true`: a clean result
means a clean start. -/
theorem encodeVal_err_of (v : Value) (st : ucdrBuffer)
    (h : (encodeVal v st).err = false) : st.err = false := by
  by_contra hc
  rw [encodeVal_sticky v st (by revert hc; cases st.err <;> simp)] at h
  revert hc; rw [h]; simp

theorem encodeList_err_of (vs : List Value) (st : ucdrBuffer)
    (h : (encodeList vs st).err = false) : st.err = false := by
  by_contra hc
  rw [encodeList_sticky vs st (by revert hc; cases st.err <;> simp)] at h
  revert hc; rw [h]; simp

end Picoserdes

namespace Picoserdes

theorem fromLE_leBytes : ∀ w v, fromLE (leBytes w v) = v % 256 ^ w
  | 0, v => by simp [leBytes, fromLE, Nat.mod_one]
  | w + 1, v => by
    rw [leBytes, fromLE, fromLE_leBytes w, Nat.mod_mod_of_dvd v (dvd_refl 256),
      pow_succ', Nat.mod_mul]

theorem leBytes_lt : ∀ w v b, b ∈ leBytes w v → b < 256
  | 0, _, _, h => by simp [leBytes] at h
  | w + 1, v, b, h => by
    rw [leBytes] at h
    rcases List.mem_cons.mp h with hb | hb
    · omega
    · exact leBytes_lt w _ b hb

theorem leBytes_lt' (w v b : Nat) (h : b ∈ leBytes w v) : b < 256 := leBytes_lt w v b h

/-- Reading back a list through `getD` over its index range returns the
list itself. -/
theorem map_range_getD (l : List Nat) :
    (List.range l.length).map (fun i => l.getD i 0) = l := by
  apply List.ext_getElem
  · simp
  · intro i h1 h2
    rw [List.getElem_map, List.getElem_range, List.getD_eq_getElem l 0 h2]

/-- `readPrim` characterized on a memory holding a known byte list. -/
theorem readPrim_bytes (mem : Nat → Nat) (cap w pos : Nat) (bs : List Nat)
    (hlen : bs.length = w)
    (hfit : pos + padOf pos w + w ≤ cap)
    (hmem : ∀ i, i < w → mem (pos + padOf pos w + i) = bs.getD i 0) :
    readPrim mem cap w pos = some (fromLE bs, pos + padOf pos w + w) := by
  unfold readPrim
  rw [if_pos hfit]
  have : (List.range w).map (fun i => mem (pos + padOf pos w + i)) = bs := by
    have h1 : (List.range w).map (fun i => mem (pos + padOf pos w + i)) =
        (List.range w).map (fun i => bs.getD i 0) := by
      apply List.map_congr_left
      intro a ha
      exact hmem a (List.mem_range.mp ha)
    rw [h1, ← hlen, map_range_getD]
  rw [this]

/-- `readBytes` characterized on a memory holding a known byte list whose
entries are bytes. -/
theorem readBytes_bytes (mem : Nat → Nat) (cap n pos : Nat) (bs : List Nat)
    (hlen : bs.length = n)
    (hfit : pos + n ≤ cap)
    (hmem : ∀ i, i < n → mem (pos + i) = bs.getD i 0)
    (hlt : ∀ b ∈ bs, b < 256) :
    readBytes mem cap n pos = some (bs, pos + n) := by
  unfold readBytes
  rw [if_pos hfit]
  have : (List.range n).map (fun i => mem (pos + i) % 256) = bs := by
    have h1 : (List.range n).map (fun i => mem (pos + i) % 256) =
        (List.range n).map (fun i => bs.getD i 0) := by
      apply List.map_congr_left
      intro a ha
      have halt : a < n := List.mem_range.mp ha
      rw [hmem a halt]
      have hb : bs.getD a 0 < 256 := by
        rw [List.getD_eq_getElem bs 0 (hlen ▸ halt)]
        exact hlt _ (List.getElem_mem _)
      exact Nat.mod_eq_of_lt hb
    rw [h1, ← hlen, map_range_getD]
  rw [this]

/-- Mapping bytes through mod 256 is the identity on byte lists. -/
theorem map_mod_eq (bs : List Nat) (h : ∀ b ∈ bs, b < 256) :
    bs.map (fun b => b % 256) = bs := by
  have : bs.map (fun b => b % 256) = bs.map id := by
    apply List.map_congr_left
    intro a ha
    exact Nat.mod_eq_of_lt (h a ha)
  rw [this, List.map_id]

end Picoserdes

namespace Picoserdes

/-! ### `size_t` arithmetic -/

theorem size_sub_eq (a b : Nat) (hb : b ≤ a) (ha : a < 2 ^ 64) :
    size_sub a b = a - b := by
  unfold size_sub
  have hb2 : b ≤ 2 ^ 64 := le_trans hb (le_of_lt ha)
  have h1 : a + (2 ^ 64 - b) = (a - b) + 2 ^ 64 := by omega
  rw [h1, Nat.add_mod_right]
  exact Nat.mod_eq_of_lt (by omega)

/-! ### Reader facts -/

theorem readPrim_mono (mem : Nat → Nat) (cap cap' w pos : Nat) (r : Nat × Nat)
    (hc : cap ≤ cap') (h : readPrim mem cap w pos = some r) :
    readPrim mem cap' w pos = some r := by
  unfold readPrim at h ⊢
  split at h
  · rename_i hfit
    rw [if_pos (le_trans hfit hc)]
    exact h
  · exact absurd h (by simp)

theorem readBytes_mono (mem : Nat → Nat) (cap cap' n pos : Nat) (r : List Nat × Nat)
    (hc : cap ≤ cap') (h : readBytes mem cap n pos = some r) :
    readBytes mem cap' n pos = some r := by
  unfold readBytes at h ⊢
  split at h
  · rename_i hfit
    rw [if_pos (le_trans hfit hc)]
    exact h
  · exact absurd h (by simp)

theorem readPrim_le (mem : Nat → Nat) (cap w pos : Nat) (r : Nat × Nat)
    (h : readPrim mem cap w pos = some r) : pos ≤ r.2 ∧ r.2 ≤ cap := by
  unfold readPrim at h
  split at h
  · rename_i hfit
    injection h with h2
    subst h2
    exact ⟨by omega, by omega⟩
  · exact absurd h (by simp)

theorem readBytes_le (mem : Nat → Nat) (cap n pos : Nat) (r : List Nat × Nat)
    (h : readBytes mem cap n pos = some r) : pos ≤ r.2 ∧ r.2 ≤ cap := by
  unfold readBytes at h
  split at h
  · rename_i hfit
    injection h with h2
    subst h2
    exact ⟨by omega, by omega⟩
  · exact absurd h (by simp)

theorem readPrim_frame (mem mem' : Nat → Nat) (cap w pos : Nat)
    (h : ∀ i, i < cap → mem i = mem' i) :
    readPrim mem cap w pos = readPrim mem' cap w pos := by
  unfold readPrim
  split
  · rename_i hfit
    have heq : (List.range w).map (fun i => mem (pos + padOf pos w + i)) =
        (List.range w).map (fun i => mem' (pos + padOf pos w + i)) := by
      apply List.map_congr_left
      intro a ha
      exact h _ (by have := List.mem_range.mp ha; omega)
    rw [heq]
  · rfl

theorem readBytes_frame (mem mem' : Nat → Nat) (cap n pos : Nat)
    (h : ∀ i, i < cap → mem i = mem' i) :
    readBytes mem cap n pos = readBytes mem' cap n pos := by
  unfold readBytes
  split
  · rename_i hfit
    have heq : (List.range n).map (fun i => mem (pos + i) % 256) =
        (List.range n).map (fun i => mem' (pos + i) % 256) := by
      apply List.map_congr_left
      intro a ha
      rw [h _ (by have := List.mem_range.mp ha; omega)]
    rw [heq]
  · rfl

theorem decodeListN_congr (d d' : Nat → Option (Value × Nat))
    (h : ∀ q, d q = d' q) : ∀ n pos, decodeListN d n pos = decodeListN d' n pos := by
  intro n
  induction n with
  | zero => intro pos; rfl
  | succ n ih =>
      intro pos
      rw [decodeListN, decodeListN, h pos]
      cases hd : d' pos with
      | none => rfl
      | some vp =>
          obtain ⟨v, p⟩ := vp
          simp only [ih p]

theorem decodeListN_mono (d d' : Nat → Option (Value × Nat))
    (h : ∀ q r, d q = some r → d' q = some r) :
    ∀ n pos r, decodeListN d n pos = some r → decodeListN d' n pos = some r := by
  intro n
  induction n with
  | zero => intro pos r hr; exact hr
  | succ n ih =>
      intro pos r hr
      rw [decodeListN] at hr ⊢
      cases hd : d pos with
      | none => rw [hd] at hr; exact absurd hr (by simp)
      | some vp =>
          obtain ⟨v, p⟩ := vp
          rw [hd] at hr
          rw [h pos (v, p) hd]
          simp only at hr ⊢
          cases hrest : decodeListN d n p with
          | none => rw [hrest] at hr; exact absurd hr (by simp)
          | some vsp =>
              obtain ⟨vs, p'⟩ := vsp
              rw [hrest] at hr
              rw [ih p (vs, p') hrest]
              exact hr

theorem decodeListN_le (cap : Nat) (d : Nat → Option (Value × Nat))
    (h : ∀ q r, q ≤ cap → d q = some r → q ≤ r.2 ∧ r.2 ≤ cap) :
    ∀ n pos r, pos ≤ cap → decodeListN d n pos = some r →
      pos ≤ r.2 ∧ r.2 ≤ cap := by
  intro n
  induction n with
  | zero =>
      intro pos r hpos hr
      rw [decodeListN] at hr
      injection hr with h2
      subst h2
      exact ⟨le_refl _, hpos⟩
  | succ n ih =>
      intro pos r hpos hr
      rw [decodeListN] at hr
      cases hd : d pos with
      | none => rw [hd] at hr; exact absurd hr (by simp)
      | some vp =>
          obtain ⟨v, p⟩ := vp
          rw [hd] at hr
          simp only at hr
          have h1 := h pos (v, p) hpos hd
          cases hrest : decodeListN d n p with
          | none => rw [hrest] at hr; exact absurd hr (by simp)
          | some vsp =>
              obtain ⟨vs, p'⟩ := vsp
              rw [hrest] at hr
              have h2 := ih p (vs, p') h1.2 hrest
              injection hr with h3
              subst h3
              exact ⟨le_trans h1.1 h2.1, h2.2⟩

end Picoserdes

namespace Picoserdes

mutual
theorem decodeVal_mono (t : TypeD) : ∀ mem cap cap' pos r, cap ≤ cap' →
    decodeVal mem cap t pos = some r → decodeVal mem cap' t pos = some r := by
  intro mem cap cap' pos r hc h
  cases t with
  | prim w =>
      rw [decodeVal] at h ⊢
      cases hp : readPrim mem cap w pos with
      | none => rw [hp] at h; exact absurd h (by simp)
      | some vp =>
          rw [hp] at h
          rw [readPrim_mono mem cap cap' w pos vp hc hp]
          exact h
  | rstr =>
      rw [decodeVal] at h ⊢
      cases hp : readPrim mem cap 4 pos with
      | none => rw [hp] at h; exact absurd h (by simp)
      | some vp =>
          obtain ⟨len, p⟩ := vp
          rw [hp] at h
          simp only at h
          rw [readPrim_mono mem cap cap' 4 pos (len, p) hc hp]
          simp only
          cases hb : readBytes mem cap len p with
          | none => rw [hb] at h; exact absurd h (by simp)
          | some bp =>
              rw [hb] at h
              rw [readBytes_mono mem cap cap' len p bp hc hb]
              exact h
  | fixedArray t n =>
      rw [decodeVal] at h ⊢
      cases hl : decodeListN (fun q => decodeVal mem cap t q) n pos with
      | none => rw [hl] at h; exact absurd h (by simp)
      | some vsp =>
          rw [hl] at h
          rw [decodeListN_mono _ _
            (fun q r2 hq => decodeVal_mono t mem cap cap' q r2 hc hq) n pos vsp hl]
          exact h
  | seq t =>
      rw [decodeVal] at h ⊢
      cases hp : readPrim mem cap 4 pos with
      | none => rw [hp] at h; exact absurd h (by simp)
      | some vp =>
          obtain ⟨n, p⟩ := vp
          rw [hp] at h
          simp only at h
          rw [readPrim_mono mem cap cap' 4 pos (n, p) hc hp]
          simp only
          cases hl : decodeListN (fun q => decodeVal mem cap t q) n p with
          | none => rw [hl] at h; exact absurd h (by simp)
          | some vsp =>
              rw [hl] at h
              rw [decodeListN_mono _ _
                (fun q r2 hq => decodeVal_mono t mem cap cap' q r2 hc hq) n p vsp hl]
              exact h
  | compound ts =>
      rw [decodeVal] at h ⊢
      cases hf : decodeFields mem cap ts pos with
      | none => rw [hf] at h; exact absurd h (by simp)
      | some vsp =>
          rw [hf] at h
          rw [decodeFields_mono ts mem cap cap' pos vsp hc hf]
          exact h

theorem decodeFields_mono (ts : List TypeD) : ∀ mem cap cap' pos r, cap ≤ cap' →
    decodeFields mem cap ts pos = some r → decodeFields mem cap' ts pos = some r := by
  intro mem cap cap' pos r hc h
  cases ts with
  | nil => rw [decodeFields] at h ⊢; exact h
  | cons t ts =>
      rw [decodeFields] at h ⊢
      cases hv : decodeVal mem cap t pos with
      | none => rw [hv] at h; exact absurd h (by simp)
      | some vp =>
          obtain ⟨v, p⟩ := vp
          rw [hv] at h
          simp only at h
          rw [decodeVal_mono t mem cap cap' pos (v, p) hc hv]
          simp only
          cases hf : decodeFields mem cap ts p with
          | none => rw [hf] at h; exact absurd h (by simp)
          | some vsp =>
              rw [hf] at h
              rw [decodeFields_mono ts mem cap cap' p vsp hc hf]
              exact h
end

end Picoserdes

namespace Picoserdes

mutual
theorem decodeVal_le (t : TypeD) : ∀ mem cap pos r, pos ≤ cap →
    decodeVal mem cap t pos = some r → pos ≤ r.2 ∧ r.2 ≤ cap := by
  intro mem cap pos r hpos h
  cases t with
  | prim w =>
      rw [decodeVal] at h
      cases hp : readPrim mem cap w pos with
      | none => rw [hp] at h; exact absurd h (by simp)
      | some vp =>
          rw [hp] at h
          simp only at h
          have := readPrim_le mem cap w pos vp hp
          injection h with h2
          subst h2
          exact this
  | rstr =>
      rw [decodeVal] at h
      cases hp : readPrim mem cap 4 pos with
      | none => rw [hp] at h; exact absurd h (by simp)
      | some vp =>
          obtain ⟨len, p⟩ := vp
          rw [hp] at h
          simp only at h
          have h1 := readPrim_le mem cap 4 pos (len, p) hp
          cases hb : readBytes mem cap len p with
          | none => rw [hb] at h; exact absurd h (by simp)
          | some bp =>
              rw [hb] at h
              have h2 := readBytes_le mem cap len p bp hb
              injection h with h3
              subst h3
              exact ⟨le_trans h1.1 h2.1, h2.2⟩
  | fixedArray t n =>
      rw [decodeVal] at h
      cases hl : decodeListN (fun q => decodeVal mem cap t q) n pos with
      | none => rw [hl] at h; exact absurd h (by simp)
      | some vsp =>
          rw [hl] at h
          have := decodeListN_le cap _
            (fun q r2 hq hd => decodeVal_le t mem cap q r2 hq hd) n pos vsp hpos hl
          injection h with h2
          subst h2
          exact this
  | seq t =>
      rw [decodeVal] at h
      cases hp : readPrim mem cap 4 pos with
      | none => rw [hp] at h; exact absurd h (by simp)
      | some vp =>
          obtain ⟨n, p⟩ := vp
          rw [hp] at h
          simp only at h
          have h1 := readPrim_le mem cap 4 pos (n, p) hp
          cases hl : decodeListN (fun q => decodeVal mem cap t q) n p with
          | none => rw [hl] at h; exact absurd h (by simp)
          | some vsp =>
              rw [hl] at h
              have h2 := decodeListN_le cap _
                (fun q r2 hq hd => decodeVal_le t mem cap q r2 hq hd) n p vsp h1.2 hl
              injection h with h3
              subst h3
              exact ⟨le_trans h1.1 h2.1, h2.2⟩
  | compound ts =>
      rw [decodeVal] at h
      cases hf : decodeFields mem cap ts pos with
      | none => rw [hf] at h; exact absurd h (by simp)
      | some vsp =>
          rw [hf] at h
          have := decodeFields_le ts mem cap pos vsp hpos hf
          injection h with h2
          subst h2
          exact this

theorem decodeFields_le (ts : List TypeD) : ∀ mem cap pos r, pos ≤ cap →
    decodeFields mem cap ts pos = some r → pos ≤ r.2 ∧ r.2 ≤ cap := by
  intro mem cap pos r hpos h
  cases ts with
  | nil =>
      rw [decodeFields] at h
      injection h with h2
      subst h2
      exact ⟨le_refl _, hpos⟩
  | cons t ts =>
      rw [decodeFields] at h
      cases hv : decodeVal mem cap t pos with
      | none => rw [hv] at h; exact absurd h (by simp)
      | some vp =>
          obtain ⟨v, p⟩ := vp
          rw [hv] at h
          simp only at h
          have h1 := decodeVal_le t mem cap pos (v, p) hpos hv
          cases hf : decodeFields mem cap ts p with
          | none => rw [hf] at h; exact absurd h (by simp)
          | some vsp =>
              rw [hf] at h
              have h2 := decodeFields_le ts mem cap p vsp h1.2 hf
              injection h with h3
              subst h3
              exact ⟨le_trans h1.1 h2.1, h2.2⟩
end

mutual
theorem decodeVal_frame (t : TypeD) : ∀ mem mem' cap pos,
    (∀ i, i < cap → mem i = mem' i) →
    decodeVal mem cap t pos = decodeVal mem' cap t pos := by
  intro mem mem' cap pos hm
  cases t with
  | prim w =>
      rw [decodeVal, decodeVal, readPrim_frame mem mem' cap w pos hm]
  | rstr =>
      rw [decodeVal, decodeVal, readPrim_frame mem mem' cap 4 pos hm]
      cases hp : readPrim mem' cap 4 pos with
      | none => rfl
      | some vp =>
          obtain ⟨len, p⟩ := vp
          simp only [readBytes_frame mem mem' cap len p hm]
  | fixedArray t n =>
      rw [decodeVal, decodeVal,
        decodeListN_congr _ _ (fun q => decodeVal_frame t mem mem' cap q hm) n pos]
  | seq t =>
      rw [decodeVal, decodeVal, readPrim_frame mem mem' cap 4 pos hm]
      cases hp : readPrim mem' cap 4 pos with
      | none => rfl
      | some vp =>
          obtain ⟨n, p⟩ := vp
          simp only [decodeListN_congr _ _
            (fun q => decodeVal_frame t mem mem' cap q hm) n p]
  | compound ts =>
      rw [decodeVal, decodeVal, decodeFields_frame ts mem mem' cap pos hm]

theorem decodeFields_frame (ts : List TypeD) : ∀ mem mem' cap pos,
    (∀ i, i < cap → mem i = mem' i) →
    decodeFields mem cap ts pos = decodeFields mem' cap ts pos := by
  intro mem mem' cap pos hm
  cases ts with
  | nil => rw [decodeFields, decodeFields]
  | cons t ts =>
      rw [decodeFields, decodeFields, decodeVal_frame t mem mem' cap pos hm]
      cases hv : decodeVal mem' cap t pos with
      | none => rfl
      | some vp =>
          obtain ⟨v, p⟩ := vp
          simp only [decodeFields_frame ts mem mem' cap p hm]
end

end Picoserdes

namespace Picoserdes

/-- `writePrim` on a clean cursor, in solved form. -/
theorem writePrim_on_clean (w v cap : Nat) (pre : List Nat) :
    writePrim w v ⟨cap, pre, false⟩ =
      if pre.length + padOf pre.length w + w ≤ cap then
        ⟨cap, pre ++ List.replicate (padOf pre.length w) 0 ++ leBytes w v, false⟩
      else ⟨cap, pre, true⟩ := rfl

/-- `writeBytes` on a clean cursor, in solved form. -/
theorem writeBytes_on_clean (bs : List Nat) (cap : Nat) (pre : List Nat) :
    writeBytes bs ⟨cap, pre, false⟩ =
      if pre.length + bs.length ≤ cap then
        ⟨cap, pre ++ bs.map (fun b => b % 256), false⟩
      else ⟨cap, pre, true⟩ := rfl

/-- Agreement with a byte list transfers to any of its prefixes. -/
theorem agree_of_prefix (mem : Nat → Nat) (a d b : List Nat) (hab : b = a ++ d)
    (h : ∀ j, j < b.length → mem j = b.getD j 0) :
    ∀ j, j < a.length → mem j = a.getD j 0 := by
  intro j hj
  rw [h j (by rw [hab]; simp only [List.length_append]; omega), hab,
    List.getD_append _ _ _ _ hj]

/-- Agreement with `a ++ b ++ c` read back on the middle segment. -/
theorem agree_mid (mem : Nat → Nat) (L a b c : List Nat) (hL : L = a ++ b ++ c)
    (h : ∀ j, j < L.length → mem j = L.getD j 0) :
    ∀ i, i < b.length → mem (a.length + i) = b.getD i 0 := by
  intro i hi
  have h1 : a.length + i < L.length := by
    rw [hL]; simp only [List.length_append]; omega
  rw [h _ h1, hL,
    List.getD_append _ _ _ _ (by simp only [List.length_append]; omega),
    List.getD_append_right _ _ _ _ (by omega)]
  congr 1
  omega

end Picoserdes

namespace Picoserdes

/-- A primitive written by `writePrim` at the end of `pre` is read back by
`readPrim` from any memory agreeing with the written buffer. -/
theorem readPrim_region (mem : Nat → Nat) (cap w v : Nat) (pre rest L : List Nat)
    (hL : L = pre ++ List.replicate (padOf pre.length w) 0 ++ leBytes w v ++ rest)
    (hfit : pre.length + padOf pre.length w + w ≤ cap)
    (hagree : ∀ j, j < L.length → mem j = L.getD j 0) :
    readPrim mem cap w pre.length =
      some (v % 256 ^ w, pre.length + padOf pre.length w + w) := by
  have ha : (pre ++ List.replicate (padOf pre.length w) 0).length
      = pre.length + padOf pre.length w := by simp
  have hmid := agree_mid mem L (pre ++ List.replicate (padOf pre.length w) 0)
    (leBytes w v) rest (by rw [hL]) hagree
  rw [← fromLE_leBytes]
  apply readPrim_bytes mem cap w pre.length (leBytes w v) (leBytes_length w v) hfit
  intro i hi
  have hm := hmid i (by rw [leBytes_length]; exact hi)
  rw [ha] at hm
  exact hm

/-- A raw byte block written at the end of `pre` is read back by
`readBytes` from any memory agreeing with the written buffer. -/
theorem readBytes_region (mem : Nat → Nat) (cap n : Nat) (bs pre rest L : List Nat)
    (hn : bs.length = n) (hL : L = pre ++ bs ++ rest)
    (hfit : pre.length + n ≤ cap)
    (hlt : ∀ b ∈ bs, b < 256)
    (hagree : ∀ j, j < L.length → mem j = L.getD j 0) :
    readBytes mem cap n pre.length = some (bs, pre.length + n) := by
  have hmid := agree_mid mem L pre bs rest hL hagree
  apply readBytes_bytes mem cap n pre.length bs hn hfit _ hlt
  intro i hi
  exact hmid i (by omega)

end Picoserdes

namespace Picoserdes

/-- Structure eta for the write cursor with known capacity and a clean
error flag. -/
theorem state_eta_clean (st : ucdrBuffer) (c : Nat) (hcap : st.cap = c)
    (herr : st.err = false) : st = ⟨c, st.buf, false⟩ := by
  rw [← hcap, ← herr]

/-- A clean encoder result, written as an explicit cursor literal. -/
theorem encode_state_clean (v : Value) (cap : Nat) (pre : List Nat)
    (he : (encodeVal v ⟨cap, pre, false⟩).err = false) :
    encodeVal v ⟨cap, pre, false⟩ =
      ⟨cap, (encodeVal v ⟨cap, pre, false⟩).buf, false⟩ :=
  state_eta_clean _ _ (encodeVal_cap v ⟨cap, pre, false⟩) he

mutual
/-- Round-trip at the wire-cursor level: a value encoded without overflow
starting after `pre` decodes back from any memory agreeing with the bytes
the encoder produced, consuming exactly the encoded region. -/
theorem enc_dec (v : Value) : ∀ t cap pre mem,
    hasType v t = true →
    (encodeVal v ⟨cap, pre, false⟩).err = false →
    (∀ j, j < (encodeVal v ⟨cap, pre, false⟩).buf.length →
      mem j = (encodeVal v ⟨cap, pre, false⟩).buf.getD j 0) →
    decodeVal mem cap t pre.length =
      some (v, (encodeVal v ⟨cap, pre, false⟩).buf.length) := by
  intro t cap pre mem ht he hmem
  cases v with
  | prim w n =>
      cases t with
      | prim w' =>
          simp only [hasType, Bool.and_eq_true, beq_iff_eq, decide_eq_true_eq] at ht
          obtain ⟨⟨hww', _⟩, hn⟩ := ht
          subst hww'
          have hfit : pre.length + padOf pre.length w + w ≤ cap := by
            by_contra hc
            rw [encodeVal, writePrim_on_clean, if_neg hc] at he
            exact absurd he (by simp)
          rw [encodeVal, writePrim_on_clean, if_pos hfit] at hmem ⊢
          rw [decodeVal, readPrim_region mem cap w n pre []
            (pre ++ List.replicate (padOf pre.length w) 0 ++ leBytes w n)
            (by simp) hfit (by simpa using hmem)]
          simp [Nat.mod_eq_of_lt hn, leBytes_length]
          omega
      | rstr => simp [hasType] at ht
      | fixedArray t' n' => simp [hasType] at ht
      | seq t' => simp [hasType] at ht
      | compound ts => simp [hasType] at ht
  | str s =>
      cases t with
      | prim w' => simp [hasType] at ht
      | rstr =>
          simp only [hasType, Bool.and_eq_true, decide_eq_true_eq] at ht
          obtain ⟨⟨h0, hlt⟩, hlen⟩ := ht
          have hfit1 : pre.length + padOf pre.length 4 + 4 ≤ cap := by
            by_contra hc
            rw [encodeVal, writePrim_on_clean, if_neg hc,
              writeBytes_sticky _ _ rfl] at he
            exact absurd he (by simp)
          set b1 : List Nat :=
            pre ++ List.replicate (padOf pre.length 4) 0 ++ leBytes 4 (s.length + 1)
            with hb1
          have hstep1 : writePrim 4 (s.length + 1) ⟨cap, pre, false⟩ = ⟨cap, b1, false⟩ := by
            rw [writePrim_on_clean, if_pos hfit1]
          rw [encodeVal, hstep1] at he hmem ⊢
          have hb1len : b1.length = pre.length + padOf pre.length 4 + 4 := by
            rw [hb1]
            simp only [List.length_append, List.length_replicate, leBytes_length]
          have hfit2 : b1.length + (s.length + 1) ≤ cap := by
            by_contra hc
            rw [writeBytes_on_clean, if_neg (by simpa using hc)] at he
            exact absurd he (by simp)
          have hmap : (s ++ [0]).map (fun b => b % 256) = s ++ [0] := by
            apply map_mod_eq
            intro b hb
            rcases List.mem_append.mp hb with hb | hb
            · exact hlt b hb
            · simp only [List.mem_singleton] at hb; omega
          have hstep2 : writeBytes (s ++ [0]) ⟨cap, b1, false⟩ =
              ⟨cap, b1 ++ (s ++ [0]), false⟩ := by
            rw [writeBytes_on_clean, if_pos (by simpa using hfit2), hmap]
          rw [hstep2] at hmem ⊢
          have hlen' : s.length + 1 < 256 ^ 4 := by
            have h32 : (256 : Nat) ^ 4 = 2 ^ 32 := by norm_num
            omega
          rw [decodeVal, readPrim_region mem cap 4 (s.length + 1) pre (s ++ [0])
            (b1 ++ (s ++ [0])) (by rw [hb1]) hfit1 (by simpa using hmem)]
          simp only [Nat.mod_eq_of_lt hlen']
          rw [show pre.length + padOf pre.length 4 + 4 = b1.length from hb1len.symm]
          rw [readBytes_region mem cap (s.length + 1) (s ++ [0]) b1 []
            (b1 ++ (s ++ [0])) (by simp) (by simp) hfit2
            (by
              intro b hb
              rcases List.mem_append.mp hb with hb | hb
              · exact hlt b hb
              · simp only [List.mem_singleton] at hb; omega)
            (by simpa using hmem)]
          simp [List.dropLast_concat]
      | fixedArray t' n' => simp [hasType] at ht
      | seq t' => simp [hasType] at ht
      | compound ts => simp [hasType] at ht
  | arr vs =>
      cases t with
      | prim w' => simp [hasType] at ht
      | rstr => simp [hasType] at ht
      | fixedArray t' n' =>
          simp only [hasType, Bool.and_eq_true, beq_iff_eq] at ht
          obtain ⟨hn, hall⟩ := ht
          subst hn
          rw [encodeVal] at he hmem ⊢
          rw [decodeVal, enc_dec_list vs t' cap pre mem hall he hmem]
      | seq t' => simp [hasType] at ht
      | compound ts => simp [hasType] at ht
  | seqv vs =>
      cases t with
      | prim w' => simp [hasType] at ht
      | rstr => simp [hasType] at ht
      | fixedArray t' n' => simp [hasType] at ht
      | seq t' =>
          simp only [hasType, Bool.and_eq_true, decide_eq_true_eq] at ht
          obtain ⟨hcnt, hall⟩ := ht
          rw [encodeVal] at he hmem ⊢
          have he1 : (writePrim 4 vs.length ⟨cap, pre, false⟩).err = false :=
            encodeList_err_of vs _ he
          have hfit1 : pre.length + padOf pre.length 4 + 4 ≤ cap := by
            by_contra hc
            rw [writePrim_on_clean, if_neg hc] at he1
            exact absurd he1 (by simp)
          set b1 : List Nat :=
            pre ++ List.replicate (padOf pre.length 4) 0 ++ leBytes 4 vs.length
            with hb1
          have hstep1 : writePrim 4 vs.length ⟨cap, pre, false⟩ = ⟨cap, b1, false⟩ := by
            rw [writePrim_on_clean, if_pos hfit1]
          rw [hstep1] at he hmem ⊢
          have hb1len : b1.length = pre.length + padOf pre.length 4 + 4 := by
            rw [hb1]
            simp only [List.length_append, List.length_replicate, leBytes_length]
          obtain ⟨d2, hd2⟩ := encodeList_push vs ⟨cap, b1, false⟩
          have hcnt' : vs.length < 256 ^ 4 := by
            have h32 : (256 : Nat) ^ 4 = 2 ^ 32 := by norm_num
            omega
          rw [decodeVal, readPrim_region mem cap 4 vs.length pre d2
            ((encodeList vs ⟨cap, b1, false⟩).buf) (by rw [hd2, hb1]) hfit1 hmem]
          simp only [Nat.mod_eq_of_lt hcnt']
          rw [show pre.length + padOf pre.length 4 + 4 = b1.length from hb1len.symm]
          rw [enc_dec_list vs t' cap b1 mem hall he hmem]
      | compound ts => simp [hasType] at ht
  | comp vs =>
      cases t with
      | prim w' => simp [hasType] at ht
      | rstr => simp [hasType] at ht
      | fixedArray t' n' => simp [hasType] at ht
      | seq t' => simp [hasType] at ht
      | compound ts =>
          simp only [hasType] at ht
          rw [encodeVal] at he hmem ⊢
          rw [decodeVal, enc_dec_fields vs ts cap pre mem ht he hmem]

/-- Round-trip for back-to-back element lists (array and sequence bodies). -/
theorem enc_dec_list (vs : List Value) : ∀ t cap pre mem,
    hasTypeAll vs t = true →
    (encodeList vs ⟨cap, pre, false⟩).err = false →
    (∀ j, j < (encodeList vs ⟨cap, pre, false⟩).buf.length →
      mem j = (encodeList vs ⟨cap, pre, false⟩).buf.getD j 0) →
    decodeListN (fun q => decodeVal mem cap t q) vs.length pre.length =
      some (vs, (encodeList vs ⟨cap, pre, false⟩).buf.length) := by
  intro t cap pre mem ht he hmem
  cases vs with
  | nil => rw [List.length_nil, decodeListN, encodeList]
  | cons v vs =>
      simp only [hasTypeAll, Bool.and_eq_true] at ht
      obtain ⟨ht1, htall⟩ := ht
      rw [encodeList] at he hmem ⊢
      have he2 : (encodeVal v ⟨cap, pre, false⟩).err = false :=
        encodeList_err_of vs _ he
      obtain ⟨d2, hd2⟩ := encodeList_push vs (encodeVal v ⟨cap, pre, false⟩)
      have hmem1 := agree_of_prefix mem _ d2 _ hd2 hmem
      have hdec1 := enc_dec v t cap pre mem ht1 he2 hmem1
      rw [encode_state_clean v cap pre he2] at he hmem ⊢
      rw [List.length_cons, decodeListN]
      rw [hdec1]
      simp only
      rw [enc_dec_list vs t cap ((encodeVal v ⟨cap, pre, false⟩).buf) mem htall he hmem]

/-- Round-trip for compound fields in declaration order. -/
theorem enc_dec_fields (vs : List Value) : ∀ ts cap pre mem,
    hasTypeFields vs ts = true →
    (encodeList vs ⟨cap, pre, false⟩).err = false →
    (∀ j, j < (encodeList vs ⟨cap, pre, false⟩).buf.length →
      mem j = (encodeList vs ⟨cap, pre, false⟩).buf.getD j 0) →
    decodeFields mem cap ts pre.length =
      some (vs, (encodeList vs ⟨cap, pre, false⟩).buf.length) := by
  intro ts cap pre mem ht he hmem
  cases vs with
  | nil =>
      cases ts with
      | nil => rw [decodeFields, encodeList]
      | cons t ts => simp [hasTypeFields] at ht
  | cons v vs =>
      cases ts with
      | nil => simp [hasTypeFields] at ht
      | cons t ts =>
          simp only [hasTypeFields, Bool.and_eq_true] at ht
          obtain ⟨ht1, htfs⟩ := ht
          rw [encodeList] at he hmem ⊢
          have he2 : (encodeVal v ⟨cap, pre, false⟩).err = false :=
            encodeList_err_of vs _ he
          obtain ⟨d2, hd2⟩ := encodeList_push vs (encodeVal v ⟨cap, pre, false⟩)
          have hmem1 := agree_of_prefix mem _ d2 _ hd2 hmem
          have hdec1 := enc_dec v t cap pre mem ht1 he2 hmem1
          rw [encode_state_clean v cap pre he2] at he hmem ⊢
          rw [decodeFields, hdec1]
          simp only
          rw [enc_dec_fields vs ts cap ((encodeVal v ⟨cap, pre, false⟩).buf) mem htfs he hmem]
end

end Picoserdes

namespace Picoserdes

/-- The bytes a list encoding appends are exactly the per-element chunks,
laid out back-to-back. -/
theorem encodeList_chunks (vs : List Value) : ∀ st : ucdrBuffer,
    (encodeList vs st).buf = st.buf ++ (encChunks vs st).flatten := by
  induction vs with
  | nil => intro st; simp [encodeList, encChunks]
  | cons v vs ih =>
      intro st
      rw [encodeList, encChunks, List.flatten_cons, ih (encodeVal v st)]
      obtain ⟨d1, hd1⟩ := encodeVal_push v st
      rw [hd1, List.drop_left]
      simp [List.append_assoc]

/-- One chunk per element. -/
theorem encChunks_length (vs : List Value) : ∀ st : ucdrBuffer,
    (encChunks vs st).length = vs.length := by
  induction vs with
  | nil => intro st; rfl
  | cons v vs ih => intro st; rw [encChunks, List.length_cons, List.length_cons, ih]

/-- A truncated wire image fails to decode: with any capacity strictly
below the encoded length, the decoder reports failure instead of reading
on.  Combines round-trip, capacity monotonicity and the position bound. -/
theorem decode_truncate (t : TypeD) (v : Value) (cap0 cap' : Nat) (mem : Nat → Nat)
    (ht : hasType v t = true)
    (he : (encodeVal v ⟨cap0, [], false⟩).err = false)
    (hmem : ∀ j, j < (encodeVal v ⟨cap0, [], false⟩).buf.length →
      mem j = (encodeVal v ⟨cap0, [], false⟩).buf.getD j 0)
    (hcap : cap' < (encodeVal v ⟨cap0, [], false⟩).buf.length) :
    decodeVal mem cap' t 0 = none := by
  cases hd : decodeVal mem cap' t 0 with
  | none => rfl
  | some r =>
      exfalso
      have hle : (encodeVal v ⟨cap0, [], false⟩).buf.length ≤ cap0 :=
        encodeVal_le_cap v ⟨cap0, [], false⟩ (by simp)
      have hmono := decodeVal_mono t mem cap' cap0 0 r (by omega) hd
      have henc := enc_dec v t cap0 [] mem ht he hmem
      simp only [List.length_nil] at henc
      rw [henc] at hmono
      have hbound := decodeVal_le t mem cap' 0 r (by omega) hd
      injection hmono with h2
      rw [← h2] at hbound
      simp at hbound
      omega

/-- Round-trip through the two `_ps_serialize` / `_ps_deserialize` entry
points: serialize into a `MAX`-byte buffer, hand the stored bytes to
deserialize with the same `MAX`. -/
theorem ps_roundtrip (t : TypeD) (v : Value) (MAX : Nat)
    (ht : hasType v t = true)
    (h4 : 4 ≤ MAX) (hmax : MAX < 2 ^ 64)
    (hfits : (encodeVal v ⟨MAX - 4, [], false⟩).err = false) :
    ps_deserialize t (memOf (outBytes (ps_serialize v MAX))) MAX =
      some (v, (ps_serialize v MAX).payload.length) := by
  unfold ps_deserialize ps_deserialize_generic ps_serialize ps_serialize_generic outBytes
  simp only
  rw [size_sub_eq MAX 4 (by omega) hmax]
  have hshift : ∀ j, (fun i => memOf ([0x00, 0x01, 0x00, 0x00] ++
      (encodeVal v ⟨MAX - 4, [], false⟩).buf) (i + 4)) j =
      (encodeVal v ⟨MAX - 4, [], false⟩).buf.getD j 0 := by
    intro j
    simp only [memOf]
    rw [List.getD_append_right _ _ _ _ (by simp)]
    simp
  have := enc_dec v t (MAX - 4) [] _ ht hfits (fun j _ => hshift j)
  simp only [List.length_nil] at this
  exact this

end Picoserdes

namespace Picoserdes

/-! ### Claim theorems -/

/-- C1: For every declared type `t` and every value `v` constructible from
its descriptor that fits within the supplied buffer capacity `MAX` (the
per-type serializer completes without overflow), deserializing the bytes
produced by serializing `v` (`ps_deserialize` applied to the output of
`ps_serialize`) yields a value structurally equal to `v`. -/
theorem C1_roundtrip (t : TypeD) (v : Value) (MAX : Nat)
    (ht : hasType v t = true)
    (h4 : 4 ≤ MAX) (hmax : MAX < 2 ^ 64)
    (hfits : (encodeVal v ⟨MAX - 4, [], false⟩).err = false) :
    ps_deserialize t (memOf (outBytes (ps_serialize v MAX))) MAX =
      some (v, (ps_serialize v MAX).payload.length) :=
  ps_roundtrip t v MAX ht h4 hmax hfits

/-- Witness for C1 at the concrete input `uint32 7` with `MAX = 8`. -/
theorem C1_roundtrip_witness :
    ps_deserialize (.prim 4) (memOf (outBytes (ps_serialize (.prim 4 7) 8))) 8 =
      some (.prim 4 7, 4) :=
  C1_roundtrip (.prim 4) (.prim 4 7) 8 (by decide) (by decide) (by decide) (by decide)

/-- C2 counterexample: the valid encoding of `uint32 7` with its 4 header
bytes corrupted to `9 9 9 9` still decodes successfully to `7`; decode
does not return failure on an unrecognized header, refuting the claim that
the envelope header is validated before any field is interpreted. -/
theorem C2_counterexample :
    ps_deserialize (.prim 4) (memOf [9, 9, 9, 9, 7, 0, 0, 0]) 8 =
      some (.prim 4 7, 4) ∧
    ps_deserialize (.prim 4) (memOf [9, 9, 9, 9, 7, 0, 0, 0]) 8 ≠ none := by
  constructor
  · rfl
  · rw [show ps_deserialize (.prim 4) (memOf [9, 9, 9, 9, 7, 0, 0, 0]) 8 =
        some (.prim 4 7, 4) from rfl]
    simp

/-- C2 (amended): `_ps_deserialize` initializes the read cursor at offset 4
and delegates to the per-type routine without reading the first 4 bytes:
its result is entirely independent of the envelope header bytes — the
header is skipped, not consumed-and-validated, and no `HeaderMismatch`
failure path exists. -/
theorem C2_header_skipped (t : TypeD) (mem mem' : Nat → Nat) (MAX : Nat)
    (h : ∀ i, 4 ≤ i → mem i = mem' i) :
    ps_deserialize t mem MAX = ps_deserialize t mem' MAX := by
  unfold ps_deserialize ps_deserialize_generic
  have hfun : (fun i => mem (i + 4)) = (fun i => mem' (i + 4)) := by
    funext i
    exact h (i + 4) (by omega)
  rw [hfun]

/-- Witness for C2 (amended): two buffers differing only in the 4 header
bytes decode identically. -/
theorem C2_header_skipped_witness :
    ps_deserialize (.prim 4) (memOf [0, 1, 0, 0, 7, 0, 0, 0]) 8 =
      ps_deserialize (.prim 4) (memOf [9, 9, 9, 9, 7, 0, 0, 0]) 8 :=
  C2_header_skipped (.prim 4) _ _ 8 (by
    intro i hi
    rcases Nat.lt_or_ge i 8 with h8 | h8
    · interval_cases i <;> rfl
    · show ([0, 1, 0, 0, 7, 0, 0, 0] : List Nat).getD i 0 =
        ([9, 9, 9, 9, 7, 0, 0, 0] : List Nat).getD i 0
      rw [List.getD_eq_default _ _ (by simp only [List.length_cons, List.length_nil]; omega),
        List.getD_eq_default _ _ (by simp only [List.length_cons, List.length_nil]; omega)])

/-- C3 counterexample: serializing `uint32 7` into a buffer of declared
capacity `MAX = 2` stores 8 bytes — the 4 header bytes are written
unconditionally and the `size_t` capacity `2 - 4` wraps around, so payload
bytes land at offsets at or beyond `MAX` — and the call returns the byte
count 8 with no failure indication.  This refutes the claim that an
undersized buffer makes encode report failure and write nothing at or
beyond `MAX`. -/
theorem C3_counterexample :
    2 < (outBytes (ps_serialize (Value.prim 4 7) 2)).length ∧
    (ps_serialize (Value.prim 4 7) 2).ret = 8 := by
  exact ⟨by decide, by decide⟩

/-- C3 (amended): for `4 ≤ MAX < 2 ^ 64` the encoder never stores a byte
at or beyond offset `MAX` — the cursor bounds the payload to `MAX - 4`
bytes behind the 4-byte header — but failure is not reported to the
caller: the return value is always the written payload length plus 4, the
per-type routine's success flag being discarded (and for `MAX < 4` the
unconditional header store itself writes past the buffer, as the
counterexample shows). -/
theorem C3_overflow (v : Value) (MAX : Nat) (h4 : 4 ≤ MAX) (hmax : MAX < 2 ^ 64) :
    (outBytes (ps_serialize v MAX)).length ≤ MAX ∧
    (ps_serialize v MAX).ret = (ps_serialize v MAX).payload.length + 4 := by
  refine ⟨?_, rfl⟩
  show ([0x00, 0x01, 0x00, 0x00] ++
    (encodeVal v ⟨size_sub MAX 4, [], false⟩).buf).length ≤ MAX
  rw [size_sub_eq MAX 4 (by omega) hmax]
  have hle : (encodeVal v ⟨MAX - 4, [], false⟩).buf.length ≤ MAX - 4 :=
    encodeVal_le_cap v ⟨MAX - 4, [], false⟩ (by simp)
  simp only [List.length_append, List.length_cons, List.length_nil]
  omega

/-- Witness for C3 (amended) at `uint32 7`, `MAX = 8`. -/
theorem C3_overflow_witness :
    (outBytes (ps_serialize (Value.prim 4 7) 8)).length ≤ 8 ∧
    (ps_serialize (Value.prim 4 7) 8).ret =
      (ps_serialize (Value.prim 4 7) 8).payload.length + 4 :=
  C3_overflow (Value.prim 4 7) 8 (by decide) (by decide)

/-- C4 counterexample: the valid 5-byte encoding of `uint8 5` truncated to
`MAX = 3` does not fail — the `size_t` capacity `3 - 4` wraps around and
the decoder reads the byte at absolute offset 4 (at or beyond `MAX`) and
returns success; moreover two memories agreeing on every offset below
`MAX = 3` decode to different results, so decode reads past `MAX`. -/
theorem C4_counterexample :
    ps_deserialize (TypeD.prim 1) (memOf [0, 1, 0, 0, 5]) 3 =
      some (Value.prim 1 5, 1) ∧
    ps_deserialize (TypeD.prim 1) (memOf [0, 1, 0, 0, 5]) 3 ≠
      ps_deserialize (TypeD.prim 1) (memOf [0, 1, 0, 0]) 3 := by
  constructor
  · rfl
  · rw [show ps_deserialize (TypeD.prim 1) (memOf [0, 1, 0, 0, 5]) 3 =
        some (Value.prim 1 5, 1) from rfl,
      show ps_deserialize (TypeD.prim 1) (memOf [0, 1, 0, 0]) 3 =
        some (Value.prim 1 0, 1) from rfl]
    simp

/-- C4 (amended): for `4 ≤ MAX < 2 ^ 64` decode is a function of the first
`MAX` buffer bytes only — it never depends on an offset at or beyond
`MAX`, whatever the input bytes, including inconsistent embedded sequence
counts — and a valid encoded buffer truncated to any length `MAXt` with
`4 ≤ MAXt` strictly below the encoded length fails to decode.  Both
guarantees are lost when `MAX < 4`, because the `size_t` capacity
`MAX - 4` wraps (see the counterexample). -/
theorem C4_bounds :
    (∀ t mem mem' MAX, 4 ≤ MAX → MAX < 2 ^ 64 →
      (∀ i, i < MAX → mem i = mem' i) →
      ps_deserialize t mem MAX = ps_deserialize t mem' MAX) ∧
    (∀ t v MAX MAXt, hasType v t = true → 4 ≤ MAX → MAX < 2 ^ 64 →
      (encodeVal v ⟨MAX - 4, [], false⟩).err = false →
      4 ≤ MAXt → MAXt < 4 + (ps_serialize v MAX).payload.length →
      ps_deserialize t (memOf (outBytes (ps_serialize v MAX))) MAXt = none) := by
  constructor
  · intro t mem mem' MAX h4 hmax h
    unfold ps_deserialize ps_deserialize_generic
    apply decodeVal_frame
    intro i hi
    rw [size_sub_eq MAX 4 (by omega) hmax] at hi
    exact h (i + 4) (by omega)
  · intro t v MAX MAXt ht h4 hmax hfits h4t hlt
    have hple : (ps_serialize v MAX).payload.length =
        (encodeVal v ⟨size_sub MAX 4, [], false⟩).buf.length := rfl
    rw [size_sub_eq MAX 4 (by omega) hmax] at hple
    have hcap0 : (encodeVal v ⟨MAX - 4, [], false⟩).buf.length ≤ MAX - 4 :=
      encodeVal_le_cap v ⟨MAX - 4, [], false⟩ (by simp)
    have hmaxt : MAXt < 2 ^ 64 := by omega
    unfold ps_deserialize ps_deserialize_generic ps_serialize ps_serialize_generic outBytes
    simp only
    rw [size_sub_eq MAXt 4 (by omega) hmaxt, size_sub_eq MAX 4 (by omega) hmax]
    apply decode_truncate t v (MAX - 4) (MAXt - 4) _ ht hfits
    · intro j hj
      show memOf ([0x00, 0x01, 0x00, 0x00] ++
        (encodeVal v ⟨MAX - 4, [], false⟩).buf) (j + 4) =
        (encodeVal v ⟨MAX - 4, [], false⟩).buf.getD j 0
      simp only [memOf]
      rw [List.getD_append_right _ _ _ _ (by simp)]
      simp
    · rw [← hple]
      omega

/-- Witness for C4 (amended): framing at `MAX = 8`, and truncation of the
5-byte encoding of `uint8 5` to 4 bytes failing to decode. -/
theorem C4_bounds_witness :
    ps_deserialize (TypeD.prim 1) (memOf [0, 1, 0, 0, 5]) 8 =
      ps_deserialize (TypeD.prim 1) (memOf [0, 1, 0, 0, 5]) 8 ∧
    ps_deserialize (TypeD.prim 1)
      (memOf (outBytes (ps_serialize (Value.prim 1 5) 8))) 4 = none :=
  ⟨C4_bounds.1 (TypeD.prim 1) (memOf [0, 1, 0, 0, 5]) (memOf [0, 1, 0, 0, 5]) 8
      (by decide) (by decide) (fun _ _ => rfl),
   C4_bounds.2 (TypeD.prim 1) (Value.prim 1 5) 8 4
      (by decide) (by decide) (by decide) (by decide) (by decide) (by decide)⟩

/-- C5: the `_Generic` dispatch tables of the default build form a closed,
exhaustive, static mapping: the association keys (static pointer types)
are pairwise distinct, every declared base type and its synthesized
sequence type resolve by key lookup to exactly one serializer and one
deserializer routine, and every association belongs to a declared type —
there is no fallback entry an undeclared type could select. -/
theorem C5_dispatch :
    ((generic_ser_assoc [] []).map Prod.fst).Nodup ∧
    ((generic_des_assoc [] []).map Prod.fst).Nodup ∧
    (∀ t, t ∈ BASE_TYPES_LIST →
      List.lookup (t ++ "*") (generic_ser_assoc [] []) = some ("ps_ser_" ++ t) ∧
      List.lookup (t ++ "_sequence*") (generic_ser_assoc [] []) =
        some ("ps_ser_sequence_" ++ t) ∧
      List.lookup (t ++ "*") (generic_des_assoc [] []) = some ("ps_des_" ++ t) ∧
      List.lookup (t ++ "_sequence*") (generic_des_assoc [] []) =
        some ("ps_des_sequence_" ++ t)) ∧
    (∀ p ∈ generic_ser_assoc [] [], ∃ t ∈ BASE_TYPES_LIST,
        p = (t ++ "*", "ps_ser_" ++ t) ∨
        p = (t ++ "_sequence*", "ps_ser_sequence_" ++ t)) ∧
    (∀ p ∈ generic_des_assoc [] [], ∃ t ∈ BASE_TYPES_LIST,
        p = (t ++ "*", "ps_des_" ++ t) ∨
        p = (t ++ "_sequence*", "ps_des_sequence_" ++ t)) :=
  ⟨by decide, by decide, by decide, by decide, by decide⟩

/-- Witness for C5 at the concrete type `bool`. -/
theorem C5_dispatch_witness :
    List.lookup ("bool" ++ "*") (generic_ser_assoc [] []) =
      some ("ps_ser_" ++ "bool") :=
  (C5_dispatch.2.2.1 "bool" (by decide)).1

/-- C7: a declared service's Request and Reply are independent compound
types with their own routines: serializing or deserializing a request
value gives the same result whatever the paired reply descriptor is, and
vice versa; the generated `request_TYPE` / `reply_TYPE` types are built
from their own field lists only. -/
theorem C7_srv_independent (nm hs : String) (req rep rep' req' : List TypeD)
    (v : Value) (st : ucdrBuffer) (mem : Nat → Nat) (MAX : Nat) :
    ps_ser_srv_request ⟨nm, hs, req, rep⟩ v st =
      ps_ser_srv_request ⟨nm, hs, req, rep'⟩ v st ∧
    ps_des_srv_request ⟨nm, hs, req, rep⟩ mem MAX =
      ps_des_srv_request ⟨nm, hs, req, rep'⟩ mem MAX ∧
    ps_ser_srv_reply ⟨nm, hs, req, rep⟩ v st =
      ps_ser_srv_reply ⟨nm, hs, req', rep⟩ v st ∧
    ps_des_srv_reply ⟨nm, hs, req, rep⟩ mem MAX =
      ps_des_srv_reply ⟨nm, hs, req', rep⟩ mem MAX ∧
    request_type ⟨nm, hs, req, rep⟩ = .compound req ∧
    reply_type ⟨nm, hs, req, rep⟩ = .compound rep :=
  ⟨rfl, rfl, rfl, rfl, rfl, rfl⟩

/-- C8: a declared type's identity is exposed as the two stored constants
(`ROSTYPE_NAME` / `ROSTYPE_HASH`), and no encode or decode routine reads
or depends on either string: encode and decode results are unchanged under
any replacement of the name and hash values. -/
theorem C8_identity (nm nm' hs hs' : String) (d : TypeD) (v : Value)
    (mem : Nat → Nat) (MAX : Nat) :
    ROSTYPE_NAME ⟨nm, hs, d⟩ = nm ∧
    ROSTYPE_HASH ⟨nm, hs, d⟩ = hs ∧
    ps_ser_msg ⟨nm, hs, d⟩ v MAX = ps_ser_msg ⟨nm', hs', d⟩ v MAX ∧
    ps_des_msg ⟨nm, hs, d⟩ mem MAX = ps_des_msg ⟨nm', hs', d⟩ mem MAX :=
  ⟨rfl, rfl, rfl, rfl⟩

/-- C9: every top-level encode entry point stores the little-endian
constant `0x0100` — bytes `00 01 00 00` — as the first 4 bytes of the
destination buffer before any payload byte, and returns the payload length
the per-type routine wrote plus 4, hence always at least 4, whatever
routine `f` ran and whether or not it succeeded. -/
theorem C9_header_ret (f : ucdrBuffer → ucdrBuffer) (MAX : Nat) :
    (ps_serialize_generic f MAX).header = [0x00, 0x01, 0x00, 0x00] ∧
    (ps_serialize_generic f MAX).ret =
      (ps_serialize_generic f MAX).payload.length + 4 ∧
    4 ≤ (ps_serialize_generic f MAX).ret ∧
    outBytes (ps_serialize_generic f MAX) =
      [0x00, 0x01, 0x00, 0x00] ++ (ps_serialize_generic f MAX).payload ∧
    (ps_serialize_cpp f MAX).header = [0x00, 0x01, 0x00, 0x00] ∧
    (ps_serialize_cpp f MAX).ret = (ps_serialize_cpp f MAX).payload.length + 4 :=
  ⟨rfl, rfl,
    by
      show 4 ≤ (f ⟨size_sub MAX 4, [], false⟩).buf.length + 4
      omega,
    rfl, rfl, rfl⟩

/-- C10: the C `_Generic` entry points and the C++ inline overloads
(message, service request, service reply) compute identical results for
the same per-type routine, buffer and capacity: same header store, same
cursor initialization at offset 4 with capacity reduced by 4, same byte
count (encode) and same per-type boolean result (decode). -/
theorem C10_cpp_equiv (f : ucdrBuffer → ucdrBuffer)
    (g : (Nat → Nat) → Nat → Nat → Option (Value × Nat))
    (mem : Nat → Nat) (MAX : Nat) :
    ps_serialize_cpp f MAX = ps_serialize_generic f MAX ∧
    ps_deserialize_cpp g mem MAX = ps_deserialize_generic g mem MAX ∧
    ps_serialize_cpp_srv_request f MAX = ps_serialize_generic f MAX ∧
    ps_serialize_cpp_srv_reply f MAX = ps_serialize_generic f MAX ∧
    ps_deserialize_cpp_srv_request g mem MAX = ps_deserialize_generic g mem MAX ∧
    ps_deserialize_cpp_srv_reply g mem MAX = ps_deserialize_generic g mem MAX :=
  ⟨rfl, rfl, rfl, rfl, rfl, rfl⟩

end Picoserdes

namespace Picoserdes

/-- C6: for every element type `t` and every sequence value of length `n`
(including `n = 0`) that encodes without overflow, the encoder writes the
32-bit unsigned element count `n` first, followed by exactly `n`
back-to-back encoded element chunks (one chunk per element, each starting
where the previous stopped), and decoding those bytes yields the same
sequence back — in particular with its element count equal to `n`. -/
theorem C6_sequence (t : TypeD) (vs : List Value) (MAX : Nat)
    (ht : hasType (.seqv vs) (.seq t) = true)
    (h4 : 4 ≤ MAX) (hmax : MAX < 2 ^ 64)
    (hfits : (encodeVal (.seqv vs) ⟨MAX - 4, [], false⟩).err = false) :
    (ps_serialize (.seqv vs) MAX).payload =
      leBytes 4 vs.length ++
        (encChunks vs ⟨MAX - 4, leBytes 4 vs.length, false⟩).flatten ∧
    (encChunks vs ⟨MAX - 4, leBytes 4 vs.length, false⟩).length = vs.length ∧
    ps_deserialize (.seq t) (memOf (outBytes (ps_serialize (.seqv vs) MAX))) MAX =
      some (.seqv vs, (ps_serialize (.seqv vs) MAX).payload.length) := by
  refine ⟨?_, encChunks_length vs _, ps_roundtrip (.seq t) (.seqv vs) MAX ht h4 hmax hfits⟩
  show (encodeVal (.seqv vs) ⟨size_sub MAX 4, [], false⟩).buf = _
  rw [size_sub_eq MAX 4 (by omega) hmax]
  rw [encodeVal] at hfits ⊢
  have he1 : (writePrim 4 vs.length ⟨MAX - 4, [], false⟩).err = false :=
    encodeList_err_of vs _ hfits
  have hfit1 : ([] : List Nat).length + padOf ([] : List Nat).length 4 + 4 ≤ MAX - 4 := by
    by_contra hc
    rw [writePrim_on_clean, if_neg hc] at he1
    exact absurd he1 (by simp)
  have hstep1 : writePrim 4 vs.length ⟨MAX - 4, [], false⟩ =
      ⟨MAX - 4, leBytes 4 vs.length, false⟩ := by
    rw [writePrim_on_clean, if_pos hfit1]
    simp [padOf]
  rw [hstep1, encodeList_chunks]

/-- Witness for C6 at a two-element `uint8` sequence, `MAX = 16`. -/
theorem C6_sequence_witness :
    (ps_serialize (.seqv [Value.prim 1 1, Value.prim 1 2]) 16).payload =
      leBytes 4 2 ++
        (encChunks [Value.prim 1 1, Value.prim 1 2]
          ⟨16 - 4, leBytes 4 2, false⟩).flatten ∧
    (encChunks [Value.prim 1 1, Value.prim 1 2]
        ⟨16 - 4, leBytes 4 2, false⟩).length = 2 ∧
    ps_deserialize (.seq (.prim 1))
      (memOf (outBytes (ps_serialize (.seqv [Value.prim 1 1, Value.prim 1 2]) 16))) 16 =
      some (.seqv [Value.prim 1 1, Value.prim 1 2],
        (ps_serialize (.seqv [Value.prim 1 1, Value.prim 1 2]) 16).payload.length) :=
  C6_sequence (.prim 1) [Value.prim 1 1, Value.prim 1 2] 16
    (by decide) (by decide) (by decide) (by decide)

end Picoserdes
